import Mathlib

/-!
# Verification of the SECAR weather-report generator

Shallow embedding of the pure text-generation pipeline of `update-weather.js`
(alert filtering and grouping, seasonal fallback text, the tropical-outlook
resolver's source cascade, the report renderer's highlighting pass, and the
HTML placeholder replacement), together with proofs and refutations of the
specification's claims about it.

Strings are modelled as `List Char` wherever substring structure matters
(JavaScript's `String.prototype.replace` with literal-ish regexes), and as
Lean `String` for the plain concatenation paths.
-/

set_option maxHeartbeats 4000000

namespace SecarWeather

/-! ## Generic list-of-characters machinery

`leadsWith pat s` says the character list `pat` is a prefix of `s`.  This is
the primitive used to model JavaScript regex matching of literal patterns:
`s.replace(/pat/g, rep)` scans left to right, replacing leftmost
non-overlapping occurrences without rescanning replaced text, and
`s.replace(/pat/, rep)` replaces the first occurrence only. -/

def leadsWith : List Char → List Char → Bool
  | [], _ => true
  | _ :: _, [] => false
  | p :: ps, c :: cs => p = c && leadsWith ps cs

/-- All suffixes of a list, longest first (the list itself is included). -/
def suffs : List Char → List (List Char)
  | [] => [[]]
  | c :: cs => (c :: cs) :: suffs cs

/-- Leftmost-occurrence split: `splitOnFirst pat s = some (pre, post)` when
`s = pre ++ pat ++ post` and the occurrence of `pat` at `pre.length` is the
leftmost one; `none` when `pat` does not occur in `s`. -/
def splitOnFirst (pat : List Char) : List Char → Option (List Char × List Char)
  | [] => if leadsWith pat [] then some ([], []) else none
  | c :: cs =>
    if leadsWith pat (c :: cs) then some ([], List.drop pat.length (c :: cs))
    else (splitOnFirst pat cs).map (fun pr => (c :: pr.1, pr.2))

/-- Fuelled worker for `replaceAllL`; the fuel is an upper bound on the text
length, so the recursion is structural and computations reduce in the
kernel. -/
def replaceAllF (pat rep : List Char) : Nat → List Char → List Char
  | _, [] => []
  | 0, s => s
  | fuel + 1, c :: cs =>
    if leadsWith pat (c :: cs) && !pat.isEmpty then
      rep ++ replaceAllF pat rep fuel (List.drop (pat.length - 1) cs)
    else
      c :: replaceAllF pat rep fuel cs

/-- Global literal replacement with JavaScript `replace(/pat/g, rep)`
semantics: leftmost non-overlapping occurrences, replaced text not
rescanned. -/
def replaceAllL (pat rep s : List Char) : List Char :=
  replaceAllF pat rep s.length s

/-- Fuelled worker for `countOcc`. -/
def countOccF (pat : List Char) : Nat → List Char → Nat
  | _, [] => 0
  | 0, _ => 0
  | fuel + 1, c :: cs =>
    if leadsWith pat (c :: cs) && !pat.isEmpty then
      1 + countOccF pat fuel (List.drop (pat.length - 1) cs)
    else
      countOccF pat fuel cs

/-- Number of leftmost non-overlapping occurrences of `pat`, counted the same
way `replaceAllL` replaces them. -/
def countOcc (pat s : List Char) : Nat :=
  countOccF pat s.length s

/-- Separation of `a` from the pattern `b`: no occurrence of `b` starts
inside `a`, whatever text follows `a` (no nonempty suffix of `a` is a prefix
of `b`, and `b` is a prefix of no nonempty suffix of `a`). -/
def sepB (a b : List Char) : Bool :=
  (suffs a).all fun y => y.isEmpty || (!leadsWith y b && !leadsWith b y)

/-! ## The renderer's highlighting pass (`generateReport`, lines 351-360)

`generateReport` pipes each jurisdiction's condition string through six
chained `String.replace(/·/g, ·)` calls wrapping fixed phrases in markup. -/

def warnPat : List Char := "WARNINGS".toList

def watchPat : List Char := "WATCHES".toList

def advPat : List Char := "ADVISORIES".toList

def flPat : List Char := "frequent lightning".toList

def dlPat : List Char := "dangerous lightning".toList

def cglPat : List Char := "cloud-to-ground lightning".toList

def warnRep : List Char := "<span class=\"warning\">WARNINGS</span>".toList

def watchRep : List Char := "<span class=\"watch\">WATCHES</span>".toList

def advRep : List Char := "<span class=\"advisory\">ADVISORIES</span>".toList

def strongOpen : List Char := "<strong>".toList

def strongClose : List Char := "</strong>".toList

def flRep : List Char := strongOpen ++ (flPat ++ strongClose)

def dlRep : List Char := "<strong>dangerous lightning</strong>".toList

def cglRep : List Char := "<strong>cloud-to-ground lightning</strong>".toList

/-- The six replacement steps of the highlighting pass, in source order. -/
def stepsList : List (List Char × List Char) :=
  [(warnPat, warnRep), (watchPat, watchRep), (advPat, advRep),
   (flPat, flRep), (dlPat, dlRep), (cglPat, cglRep)]

def stepApply (pr : List Char × List Char) (s : List Char) : List Char :=
  replaceAllL pr.1 pr.2 s

def applySteps (l : List (List Char × List Char)) (s : List Char) : List Char :=
  l.foldl (fun acc pr => stepApply pr acc) s

/-- The full highlighting transform applied to one condition string. -/
def highlightL (s : List Char) : List Char := applySteps stepsList s

/-- Bundled decidable side conditions under which two replacement steps
commute. -/
def commOK (a b : List Char × List Char) : Bool :=
  !a.1.isEmpty && !b.1.isEmpty && sepB a.1 b.1 && sepB b.1 a.1 &&
    sepB a.2 b.1 && sepB b.1 a.2 && sepB b.2 a.1 && sepB a.1 b.2

/-! ## Interleavings of plain text and inserted markup blocks

Output of the highlighting steps is an interleaving of original non-`'<'`
characters and whole inserted replacement blocks; this is what rules out
accidental nested markup such as `"<strong><strong>"`. -/

inductive Clean (B : List (List Char)) : List Char → Prop
  | nil : Clean B []
  | chr (c : Char) (t : List Char) : c ≠ '<' → Clean B t → Clean B (c :: t)
  | blk (b t : List Char) : b ∈ B → b ≠ [] → Clean B t → Clean B (b ++ t)

/-- Accidental nested emphasis markup, which would witness double-wrapping. -/
def dsPat : List Char := strongOpen ++ strongOpen

/-! ## Alert model and the condition composer (`processAlerts`, lines 86-126)

An alert record keeps only the fields the script consumes:
`properties.event`, `properties.severity` and `properties.expires`
(timestamps modelled as integers; `new Date(x) > new Date()` is `now < x`). -/

structure AlertRec where
  event : String
  severity : String
  expires : Int

/-- `hay.includes(pat)` for JavaScript strings. -/
def containsSub (hay pat : List Char) : Bool := (splitOnFirst pat hay).isSome

def strIncludes (hay pat : String) : Bool := containsSub hay.toList pat.toList

/-- `alerts.filter(a => new Date(a.properties.expires) > new Date())`. -/
def activeAlerts (alerts : List AlertRec) (now : Int) : List AlertRec :=
  alerts.filter fun a => now < a.expires

def warningsOf (l : List AlertRec) : List AlertRec :=
  l.filter fun a =>
    a.severity == "Severe" || a.severity == "Extreme" || strIncludes a.event "Warning"

def watchesOf (l : List AlertRec) : List AlertRec :=
  l.filter fun a => strIncludes a.event "Watch"

def advisoriesOf (l : List AlertRec) : List AlertRec :=
  l.filter fun a => a.severity == "Moderate" || strIncludes a.event "Advisory"

def joinComma (l : List String) : String := String.intercalate ", " l

/-- `getSeasonalConditions` (lines 158-164); the `state` argument is accepted
and ignored, as in the source. -/
def getSeasonalConditions (state : String) (isHot : Bool) : String :=
  if isHot then
    "Monitor for heat stress during outdoor activities. Stay hydrated and seek air conditioning during peak heating hours. "
  else
    "Typical seasonal weather patterns expected. Monitor for changing conditions. "

/-- `processAlerts` (lines 86-126): group the active alerts, emit one
sentence per non-empty group, append the seasonal reminder, and fall back to
the no-hazards sentence only if the accumulated string is empty. -/
def processAlerts (state : String) (alerts : List AlertRec) (isHot : Bool)
    (now : Int) : String :=
  let act := activeAlerts alerts now
  let condition :=
    if 0 < act.length then
      (if 0 < (warningsOf act).length then
        "Active " ++ joinComma ((warningsOf act).map (·.event)) ++ " WARNINGS in effect. "
      else "") ++
      (if 0 < (watchesOf act).length then
        joinComma ((watchesOf act).map (·.event)) ++ " WATCHES in effect. "
      else "") ++
      (if 0 < (advisoriesOf act).length then
        joinComma ((advisoriesOf act).map (·.event)) ++ " ADVISORIES in effect. "
      else "")
    else ""
  let condition := condition ++ getSeasonalConditions state isHot
  if condition = "" then
    "No significant weather hazards reported for " ++ state ++ " at this time."
  else condition

/-! ## The state catalog and the fallback composer (lines 8-17, 128-156) -/

def WEATHER_OFFICES : List (String × String) :=
  [("Tennessee", "Nashville, TN"), ("Mississippi", "Jackson, MS"),
   ("Alabama", "Birmingham, AL"), ("Georgia", "Atlanta, GA"),
   ("Florida", "Miami, FL"), ("North Carolina", "Raleigh, NC"),
   ("South Carolina", "Charleston, SC"), ("U.S. Virgin Islands", "San Juan, PR")]

def catalogStates : List String := WEATHER_OFFICES.map Prod.fst

/-- `generateFallbackConditions` (lines 128-156). -/
def generateFallbackConditions (state : String) (isHot : Bool) : String :=
  if isHot then
    "Hot and humid conditions with ADVISORIES for heat index values near or above 100°F. " ++
    (if state == "Florida" then
      "WATCHES for heavy rainfall and potential flash flooding. Scattered to numerous thunderstorms with frequent lightning and locally heavy rainfall. "
    else if state == "Mississippi" || state == "Alabama" then
      "Isolated to scattered thunderstorms possible with frequent lightning and brief heavy downpours. Monitor for heat-related illnesses. "
    else if state == "Georgia" || state == "South Carolina" then
      "Scattered afternoon thunderstorms with dangerous lightning and locally heavy rainfall. "
    else if state == "Tennessee" || state == "North Carolina" then
      "ADVISORIES for scattered thunderstorms with lightning and brief heavy rainfall. "
    else if state == "U.S. Virgin Islands" then
      "ADVISORIES for isolated showers and thunderstorms with dangerous lightning. "
    else "")
  else
    ("Seasonal temperatures expected for " ++ state ++ ". ") ++
    (if state == "Florida" || state == "U.S. Virgin Islands" then
      "Mild temperatures with occasional shower activity. "
    else
      "Monitor for potential winter weather impacts and changing conditions. ")

/-- The fixed season-opening sentence of the fallback composer, as the spec
describes it: the hot-season heat-advisory sentence, or the cold-season
opener naming the jurisdiction. -/
def seasonOpening (state : String) (isHot : Bool) : String :=
  if isHot then
    "Hot and humid conditions with ADVISORIES for heat index values near or above 100°F. "
  else
    "Seasonal temperatures expected for " ++ state ++ ". "

/-- The per-state loop of `generateReport` (lines 351-368): iterate the
catalog in order, skip entries that are absent or empty (the source's
truthiness test `if (weatherData[state])`), and render one
(name, highlighted condition) line per present entry. -/
def stateFragments (wd : String → Option String) : List (String × String) :=
  WEATHER_OFFICES.foldl
    (fun acc pr =>
      if ((wd pr.1).getD "") ≠ "" then
        acc ++ [(pr.1, String.mk (highlightL ((wd pr.1).getD "").toList))]
      else acc) []

/-- `fetchWeatherConditions` line 24: `getMonth() >= 4 && getMonth() <= 9`
(zero-based months, May-October). -/
def isHotSeason (month : Nat) : Bool := decide (4 ≤ month) && decide (month ≤ 9)

/-- `getTropicalOutlook` line 296: `month >= 5 && month <= 10` (zero-based
months, June-November). -/
def isHurricaneSeason (month : Nat) : Bool := decide (5 ≤ month) && decide (month ≤ 10)

/-! ## The tropical-outlook resolver (`getTropicalOutlook`, lines 166-317)

The network fetch plus JSON/XML decoding of each source is an oracle input;
the pure post-processing of each source's data and the cascade logic are
embedded.  A source that throws is an `Except.error`; a usable payload is an
`ok` value. -/

structure TropicalOutlook where
  outlook : String
  formation_chance : String

/-- `x.replace('%', '')`: JavaScript string-argument replace removes the
first occurrence only. -/
def stripFirstPercent (s : List Char) : List Char :=
  match splitOnFirst ['%'] s with
  | none => s
  | some pr => pr.1 ++ pr.2

def leadingNat (s : List Char) : Option Nat :=
  let ds := s.takeWhile fun c => c.isDigit
  if ds.isEmpty then none
  else some (ds.foldl (fun acc c => acc * 10 + (c.toNat - 48)) 0)

/-- JavaScript `parseInt` in base 10: skip leading whitespace, optional
sign, parse the leading digit run, `NaN` when there is none. -/
def jsParseInt (s : List Char) : Option Int :=
  match s.dropWhile (fun c => c.isWhitespace) with
  | '-' :: rest => (leadingNat rest).map fun n => -(n : Int)
  | '+' :: rest => (leadingNat rest).map fun n => (n : Int)
  | rest => (leadingNat rest).map fun n => (n : Int)

/-- `parseInt(c.replace('%','')) || 0`: `|| 0` maps `NaN` to `0` and fixes
`0` itself, so it is exactly the `NaN`-defaulting. -/
def parsePct (s : String) : Int :=
  match jsParseInt (stripFirstPercent s.toList) with
  | none => 0
  | some n => n

/-- One disturbance area of the structured NHC JSON product. -/
structure NHCArea where
  chance2day : Option String
  chance7day : Option String
  text : Option String

/-- The `data.areas.forEach` accumulation of lines 184-206: running maxima
of the 2-day and 7-day chances and the concatenated free text. -/
def structuredPass (areas : List NHCArea) : Int × Int × String :=
  areas.foldl
    (fun acc area =>
      (match area.chance2day with
        | some c => max acc.1 (parsePct c)
        | none => acc.1,
       match area.chance7day with
        | some c => max acc.2.1 (parsePct c)
        | none => acc.2.1,
       match area.text with
        | some t => acc.2.2 ++ (t ++ " ")
        | none => acc.2.2))
    (0, 0, "")

/-- Specification-style reading of the same pass: the maximum parsed 2-day
chance across all areas. -/
def max2Spec (areas : List NHCArea) : Int :=
  areas.foldl
    (fun m a =>
      match a.chance2day with
      | some c => max m (parsePct c)
      | none => m) 0

/-- The maximum parsed 7-day chance across all areas. -/
def max7Spec (areas : List NHCArea) : Int :=
  areas.foldl
    (fun m a =>
      match a.chance7day with
      | some c => max m (parsePct c)
      | none => m) 0

/-- The concatenation of all present free-text fields. -/
def textSpec (areas : List NHCArea) : String :=
  areas.foldl
    (fun t a =>
      match a.text with
      | some x => t ++ (x ++ " ")
      | none => t) ""

def defaultStructuredOutlook : String :=
  "The National Hurricane Center is monitoring the Atlantic basin for tropical development."

/-- JavaScript-style trim of both ends. -/
def trimL (s : List Char) : List Char :=
  ((s.dropWhile fun c => c.isWhitespace).reverse.dropWhile fun c =>
    c.isWhitespace).reverse

/-- Lines 183-215 of `update-weather.js`: the structured-JSON branch taken
when `data.areas` is non-empty.  Note the 7-day maximum takes priority over
the 2-day maximum in `formationChance`. -/
def getTropicalOutlookStructured (areas : List NHCArea) : TropicalOutlook :=
  let p := structuredPass areas
  let formationChance :=
    if 0 < p.2.1 then toString p.2.1 ++ "%"
    else if 0 < p.1 then toString p.1 ++ "%"
    else "0%"
  let t := String.mk (trimL p.2.2.toList)
  { outlook := if t = "" then defaultStructuredOutlook else t
    formation_chance := formationChance }

/-- Source 1 (NHC JSON, lines 171-219): errors are swallowed by the inner
`catch`; a response without a non-empty `areas` list yields nothing. -/
def method1 (s1 : Except String (List NHCArea)) : Option TropicalOutlook :=
  match s1 with
  | .error _ => none
  | .ok areas => if 0 < areas.length then some (getTropicalOutlookStructured areas) else none

def rssDefaultOutlook : String :=
  "The National Hurricane Center is monitoring disturbances in the Atlantic basin."

/-- Source 2 (RSS, lines 222-268): the scraped `(maxPercent, outlookText)`
pair is the oracle input; the branch of lines 258-263 is embedded. -/
def method2 (s2 : Except String (Option (Nat × String))) : Option TropicalOutlook :=
  match s2 with
  | .error _ => none
  | .ok none => none
  | .ok (some pr) =>
    if 0 < pr.1 ∨ pr.2 ≠ "" then
      some { outlook := if pr.2 ≠ "" then pr.2 else rssDefaultOutlook
             formation_chance := if 0 < pr.1 then toString pr.1 ++ "%" else "0%" }
    else none

/-- Source 3 (CurrentStorms, lines 271-292): the `activeStorms` entries'
optional names are the oracle input (`storm.name || 'Unnamed'`). -/
def method3 (s3 : Except String (List (Option String))) : Option TropicalOutlook :=
  match s3 with
  | .error _ => none
  | .ok storms =>
    if 0 < storms.length then
      some { outlook := "The National Hurricane Center is currently tracking " ++
               toString storms.length ++ " active system(s): " ++
               joinComma (storms.map fun nm =>
                 match nm with
                 | some n => if n = "" then "Unnamed" else n
                 | none => "Unnamed") ++
               ". Monitor official forecasts for the latest information."
             formation_chance := "Active Systems" }
    else none

/-- The season-keyed terminal fallback of lines 294-308. -/
def seasonalFallback (month : Nat) : TropicalOutlook :=
  if isHurricaneSeason month then
    { outlook := "Unable to retrieve current formation probabilities from NHC APIs. The National Hurricane Center continues to monitor the Atlantic basin. Visit nhc.noaa.gov for the most current tropical weather outlook."
      formation_chance := "Check NHC" }
  else
    { outlook := "Outside of peak hurricane season. No significant tropical activity expected in the Atlantic basin at this time."
      formation_chance := "0%" }

/-- The source cascade: first usable result wins, then the seasonal
fallback. -/
def getTropicalOutlook (s1 : Except String (List NHCArea))
    (s2 : Except String (Option (Nat × String)))
    (s3 : Except String (List (Option String))) (month : Nat) : TropicalOutlook :=
  match method1 s1 with
  | some t => t
  | none =>
    match method2 s2 with
    | some t => t
    | none =>
      match method3 s3 with
      | some t => t
      | none => seasonalFallback month

/-- The outer `catch` handler value of lines 310-316. -/
def catchAllOutlook : TropicalOutlook :=
  { outlook := "Tropical weather outlook temporarily unavailable. Visit nhc.noaa.gov for official information."
    formation_chance := "Visit NHC" }

def tryCatchT (body : Except String TropicalOutlook) (handler : TropicalOutlook) :
    Except String TropicalOutlook :=
  match body with
  | .ok t => .ok t
  | .error _ => .ok handler

/-- The whole of `getTropicalOutlook` including its outer `try`/`catch`: the
body cannot raise once the per-source `catch`es have absorbed source
failures, and the outer handler maps any escape to `catchAllOutlook`. -/
def getTropicalOutlookE (s1 : Except String (List NHCArea))
    (s2 : Except String (Option (Nat × String)))
    (s3 : Except String (List (Option String))) (month : Nat) :
    Except String TropicalOutlook :=
  tryCatchT (Except.ok (getTropicalOutlook s1 s2 s3 month)) catchAllOutlook

/-! ## The HTML publish step (`updateHtmlFile`, lines 407-439, and the
variant of `part_000` lines 476-503 that performs only the single
placeholder replacement)

`template.replace(/<div id="reportOutput" class="report-text">[\s\S]*?<\/div>/, ...)`
— leftmost match starting at the first occurrence of the opening marker,
lazily extending to the next `</div>`; when the regex does not match, the
string is returned unchanged.  JavaScript `$`-escapes in the replacement
string are honoured (`$$`, `$&` for the match, backtick-`$` for the prefix
and apostrophe-`$` for the suffix of the subject around the match). -/

def openerP : List Char := "<div id=\"reportOutput\" class=\"report-text\">".toList

def closeP : List Char := "</div>".toList

def loadingP : List Char := "Loading...".toList

/-- JavaScript `GetSubstitution` for a replacement string without capture
groups (a trailing lone `'$'` is literal, as is a singleton non-escape). -/
def expandDollar (matched before after : List Char) : List Char → List Char
  | [] => []
  | [c] => [c]
  | c :: d :: rest2 =>
    if c = '$' then
      if d = '$' then '$' :: expandDollar matched before after rest2
      else if d = '&' then matched ++ expandDollar matched before after rest2
      else if d = Char.ofNat 96 then before ++ expandDollar matched before after rest2
      else if d = Char.ofNat 39 then after ++ expandDollar matched before after rest2
      else c :: d :: expandDollar matched before after rest2
    else c :: expandDollar matched before after (d :: rest2)

/-- The single placeholder replacement shared by both script variants: find
the first opening marker, lazily extend to the next `</div>`, splice in the
rendered fragment. -/
def replaceFirstDiv (template frag : List Char) : List Char :=
  match splitOnFirst openerP template with
  | none => template
  | some pr =>
    match splitOnFirst closeP pr.2 with
    | none => template
    | some pr2 =>
      pr.1 ++ (expandDollar (openerP ++ (pr2.1 ++ closeP)) pr.1 pr2.2
        (openerP ++ (frag ++ closeP)) ++ pr2.2)

/-- Re-extraction of the placeholder's inner content with the same lazy
pattern: everything between the first opening marker and the next
`</div>`. -/
def extractDiv (html : List Char) : Option (List Char) :=
  match splitOnFirst openerP html with
  | none => none
  | some pr => (splitOnFirst closeP pr.2).map Prod.fst

/-- The second replacement of `update-weather.js` lines 425-428:
`.replace(/Loading\.\.\./, ...)`, first occurrence only. -/
def replaceLoading (s updateTime : List Char) : List Char :=
  match splitOnFirst loadingP s with
  | none => s
  | some pr =>
    pr.1 ++ (expandDollar loadingP pr.1 pr.2
      ("Last Updated: ".toList ++ updateTime) ++ pr.2)

def updateHtmlMain (template frag updateTime : List Char) : List Char :=
  replaceLoading (replaceFirstDiv template frag) updateTime

/-- The publish step on an already-read template: in the pure model the
file-system reads and writes are given, so the `try` body always completes
and the `catch`/`process.exit(1)` path is never taken. -/
def updateHtmlRun (template frag updateTime : List Char) :
    Except String (List Char) :=
  Except.ok (updateHtmlMain template frag updateTime)

/-! ## Concrete inputs used by counterexamples and witnesses -/

def areasCex : List NHCArea :=
  [{ chance2day := none, chance7day := some "40%", text := none },
   { chance2day := some "70%", chance7day := none, text := none }]

def tmplCex : List Char :=
  "A<div id=\"reportOutput\" class=\"report-text\">old</div>B".toList

def fragCex : List Char := "x</div>y".toList

def tmplNoMarker : List Char := "<html><body>nothing here</body></html>".toList

def wdW : String → Option String :=
  fun st => if st == "Florida" || st == "Georgia" then some "thunderstorms" else none

def sWitness : List Char :=
  "Storms with frequent lightning WARNINGS in effect today.".toList

theorem leadsWith_nil_iff (pat : List Char) : leadsWith pat [] = true ↔ pat = [] := by
  cases pat <;> simp [leadsWith]

theorem leadsWith_refl_append (pat t : List Char) : leadsWith pat (pat ++ t) = true := by
  induction pat with
  | nil => rfl
  | cons p ps ih => simp [leadsWith, ih]

theorem leadsWith_length_le {a b : List Char} (h : leadsWith a b = true) :
    a.length ≤ b.length := by
  induction a generalizing b with
  | nil => simp
  | cons x xs ih =>
    cases b with
    | nil => simp [leadsWith] at h
    | cons y ys =>
      simp only [leadsWith, Bool.and_eq_true] at h
      simp only [List.length_cons]
      exact Nat.succ_le_succ (ih h.2)

theorem leadsWith_trans {a b t : List Char} (hab : leadsWith a b = true)
    (hbt : leadsWith b t = true) : leadsWith a t = true := by
  induction a generalizing b t with
  | nil => rfl
  | cons x xs ih =>
    cases b with
    | nil => simp [leadsWith] at hab
    | cons y ys =>
      cases t with
      | nil => simp [leadsWith] at hbt
      | cons z zs =>
        simp only [leadsWith, Bool.and_eq_true, decide_eq_true_eq] at hab hbt ⊢
        exact ⟨hab.1.trans hbt.1, ih hab.2 hbt.2⟩

theorem leadsWith_eq_append (pat s : List Char) (h : leadsWith pat s = true) :
    s = pat ++ List.drop pat.length s := by
  induction pat generalizing s with
  | nil => simp
  | cons p ps ih =>
    cases s with
    | nil => simp [leadsWith] at h
    | cons c cs =>
      simp only [leadsWith, Bool.and_eq_true, decide_eq_true_eq] at h
      rw [List.cons_append, List.length_cons, List.drop_succ_cons, h.1]
      exact congrArg (c :: ·) (ih cs h.2)

theorem drop_length_append (a t : List Char) : List.drop a.length (a ++ t) = t := by
  induction a with
  | nil => rfl
  | cons c cs ih => simp [ih]

/-- How prefix testing decomposes over an append. -/
theorem leadsWith_append (y a t : List Char) :
    leadsWith y (a ++ t) =
      (leadsWith y a || (leadsWith a y && leadsWith (List.drop a.length y) t)) := by
  induction a generalizing y with
  | nil =>
    cases y with
    | nil => rfl
    | cons z zs => simp [leadsWith]
  | cons x xs ih =>
    cases y with
    | nil => rfl
    | cons z zs =>
      by_cases hzx : z = x
      · subst hzx
        simp only [List.cons_append, leadsWith, List.length_cons, List.drop_succ_cons]
        simp [ih zs]
      · simp [List.cons_append, leadsWith, hzx, Ne.symm hzx]

theorem mem_suffs_self (l : List Char) : l ∈ suffs l := by
  cases l <;> simp [suffs]

theorem mem_suffs_of_cons {c : Char} {y l : List Char} (h : c :: y ∈ suffs l) :
    y ∈ suffs l := by
  induction l with
  | nil => simp [suffs] at h
  | cons x xs ih =>
    simp only [suffs, List.mem_cons] at h ⊢
    rcases h with h | h
    · cases h
      exact Or.inr (mem_suffs_self _)
    · exact Or.inr (ih h)

theorem mem_suffs_tail {x : Char} {xs : List Char} {y : List Char}
    (h : y ∈ suffs xs) : y ∈ suffs (x :: xs) := by
  simp [suffs, h]

theorem length_le_of_mem_suffs {y l : List Char} (h : y ∈ suffs l) :
    y.length ≤ l.length := by
  induction l with
  | nil => simp [suffs] at h; simp [h]
  | cons x xs ih =>
    simp only [suffs, List.mem_cons] at h
    rcases h with h | h
    · simp [h]
    · exact (ih h).trans (by simp)

theorem sepB_elim {a b y : List Char} (hs : sepB a b = true) (hy : y ∈ suffs a)
    (hne : y ≠ []) : leadsWith y b = false ∧ leadsWith b y = false := by
  have := List.all_eq_true.mp hs y hy
  rcases y with _ | ⟨c, cs⟩
  · exact absurd rfl hne
  · simpa using this

theorem sepB_tail {c : Char} {a b : List Char} (hs : sepB (c :: a) b = true) :
    sepB a b = true := by
  refine List.all_eq_true.mpr fun y hy => ?_
  exact List.all_eq_true.mp hs y (mem_suffs_tail hy)

/-- Under separation, the pattern cannot match starting anywhere inside `a`,
whatever follows. -/
theorem sepB_no_match {a b y : List Char} (hs : sepB a b = true) (hy : y ∈ suffs a)
    (hne : y ≠ []) (t : List Char) : leadsWith b (y ++ t) = false := by
  obtain ⟨h1, h2⟩ := sepB_elim hs hy hne
  rw [leadsWith_append]
  simp [h1, h2]

theorem leadsWith_cons_elim {A : List Char} {c : Char} {X : List Char}
    (h : leadsWith A (c :: X) = true) (hA : A ≠ []) :
    A.head? = some c ∧ leadsWith A.tail X = true := by
  cases A with
  | nil => exact absurd rfl hA
  | cons a as =>
    simp only [leadsWith, Bool.and_eq_true, decide_eq_true_eq] at h
    exact ⟨by simp [h.1], h.2⟩

theorem leadsWith_cons_intro {A : List Char} {c : Char} {X : List Char}
    (h1 : A.head? = some c) (h2 : leadsWith A.tail X = true) :
    leadsWith A (c :: X) = true := by
  cases A with
  | nil => simp at h1
  | cons a as =>
    simp only [List.head?_cons, Option.some.injEq] at h1
    simp only [leadsWith, Bool.and_eq_true, decide_eq_true_eq]
    exact ⟨h1, h2⟩

theorem tail_mem_suffs (A : List Char) (hA : A ≠ []) : A.tail ∈ suffs A := by
  cases A with
  | nil => exact absurd rfl hA
  | cons a as => exact mem_suffs_tail (mem_suffs_self as)

theorem replaceAllF_congr (pat rep : List Char) :
    ∀ (f1 : Nat) (s : List Char) (f2 : Nat), s.length ≤ f1 → s.length ≤ f2 →
      replaceAllF pat rep f1 s = replaceAllF pat rep f2 s := by
  intro f1
  induction f1 with
  | zero =>
    intro s f2 h1 _
    have hs : s = [] := List.length_eq_zero.mp (Nat.le_zero.mp h1)
    subst hs
    cases f2 <;> rfl
  | succ f ih =>
    intro s f2 h1 h2
    cases s with
    | nil => cases f2 <;> rfl
    | cons c cs =>
      cases f2 with
      | zero =>
        simp only [List.length_cons] at h2
        omega
      | succ f2' =>
        simp only [replaceAllF]
        simp only [List.length_cons] at h1 h2
        by_cases h : (leadsWith pat (c :: cs) && !pat.isEmpty) = true
        · rw [if_pos h, if_pos h]
          refine congrArg _ (ih _ _ ?_ ?_) <;> (simp only [List.length_drop]; omega)
        · rw [if_neg h, if_neg h]
          exact congrArg _ (ih _ _ (by omega) (by omega))

theorem countOccF_congr (pat : List Char) :
    ∀ (f1 : Nat) (s : List Char) (f2 : Nat), s.length ≤ f1 → s.length ≤ f2 →
      countOccF pat f1 s = countOccF pat f2 s := by
  intro f1
  induction f1 with
  | zero =>
    intro s f2 h1 _
    have hs : s = [] := List.length_eq_zero.mp (Nat.le_zero.mp h1)
    subst hs
    cases f2 <;> rfl
  | succ f ih =>
    intro s f2 h1 h2
    cases s with
    | nil => cases f2 <;> rfl
    | cons c cs =>
      cases f2 with
      | zero =>
        simp only [List.length_cons] at h2
        omega
      | succ f2' =>
        simp only [countOccF]
        simp only [List.length_cons] at h1 h2
        by_cases h : (leadsWith pat (c :: cs) && !pat.isEmpty) = true
        · rw [if_pos h, if_pos h]
          refine congrArg _ (ih _ _ ?_ ?_) <;> (simp only [List.length_drop]; omega)
        · rw [if_neg h, if_neg h]
          exact ih _ _ (by omega) (by omega)

theorem replaceAllL_nil (pat rep : List Char) : replaceAllL pat rep [] = [] := rfl

theorem countOcc_nil (pat : List Char) : countOcc pat [] = 0 := rfl

theorem length_lt_of_mem_suffs_ne {y l : List Char} (h : y ∈ suffs l) (hne : y ≠ l) :
    y.length < l.length := by
  induction l with
  | nil => simp [suffs] at h; exact absurd h hne
  | cons x xs ih =>
    simp only [suffs, List.mem_cons] at h
    rcases h with h | h
    · exact absurd h hne
    · exact Nat.lt_of_le_of_lt (length_le_of_mem_suffs h) (by simp)

theorem replaceAllL_not_lead {pat : List Char} (rep : List Char) {c : Char}
    {cs : List Char} (h : leadsWith pat (c :: cs) = false) :
    replaceAllL pat rep (c :: cs) = c :: replaceAllL pat rep cs := by
  show replaceAllF pat rep (c :: cs).length (c :: cs) = _
  simp only [List.length_cons, replaceAllF, h, Bool.false_and, Bool.false_eq_true,
    if_false]
  rfl

theorem replaceAllL_lead (pat rep t : List Char) (hp : pat ≠ []) :
    replaceAllL pat rep (pat ++ t) = rep ++ replaceAllL pat rep t := by
  obtain ⟨p, ps, rfl⟩ : ∃ p ps, pat = p :: ps := by
    cases pat
    · exact absurd rfl hp
    · exact ⟨_, _, rfl⟩
  have h1 : leadsWith (p :: ps) ((p :: ps) ++ t) = true := leadsWith_refl_append _ _
  rw [List.cons_append] at h1
  show replaceAllF (p :: ps) rep ((p :: ps) ++ t).length ((p :: ps) ++ t) = _
  rw [List.cons_append, List.length_cons, replaceAllF]
  simp only [h1, List.isEmpty_cons, Bool.not_false, Bool.and_self, if_true]
  refine congrArg _ ?_
  rw [List.length_cons, Nat.add_sub_cancel, drop_length_append ps t]
  exact replaceAllF_congr _ _ _ _ _ (by simp) le_rfl

theorem countOcc_not_lead {pat : List Char} {c : Char} {cs : List Char}
    (h : leadsWith pat (c :: cs) = false) :
    countOcc pat (c :: cs) = countOcc pat cs := by
  show countOccF pat (c :: cs).length (c :: cs) = _
  simp only [List.length_cons, countOccF, h, Bool.false_and, Bool.false_eq_true,
    if_false]
  rfl

theorem countOcc_lead (pat t : List Char) (hp : pat ≠ []) :
    countOcc pat (pat ++ t) = 1 + countOcc pat t := by
  obtain ⟨p, ps, rfl⟩ : ∃ p ps, pat = p :: ps := by
    cases pat
    · exact absurd rfl hp
    · exact ⟨_, _, rfl⟩
  have h1 : leadsWith (p :: ps) ((p :: ps) ++ t) = true := leadsWith_refl_append _ _
  rw [List.cons_append] at h1
  show countOccF (p :: ps) ((p :: ps) ++ t).length ((p :: ps) ++ t) = _
  rw [List.cons_append, List.length_cons, countOccF]
  simp only [h1, List.isEmpty_cons, Bool.not_false, Bool.and_self, if_true]
  refine congrArg _ ?_
  rw [List.length_cons, Nat.add_sub_cancel, drop_length_append ps t]
  exact countOccF_congr _ _ _ _ (by simp) le_rfl

/-- A block through which the pattern cannot match is copied verbatim by the
global replacement. -/
theorem replaceAllL_append_of_no_match (pat rep : List Char) :
    ∀ (a t : List Char),
      (∀ y ∈ suffs a, y ≠ [] → leadsWith pat (y ++ t) = false) →
      replaceAllL pat rep (a ++ t) = a ++ replaceAllL pat rep t := by
  intro a
  induction a with
  | nil => intro t _; rfl
  | cons c a' ih =>
    intro t h
    have hlead : leadsWith pat ((c :: a') ++ t) = false :=
      h _ (mem_suffs_self _) (by simp)
    rw [List.cons_append] at hlead
    rw [List.cons_append, replaceAllL_not_lead rep hlead,
      ih t fun y hy hne => h y (mem_suffs_tail hy) hne]
    rfl

theorem replaceAllL_skip (pat rep : List Char) (a t : List Char)
    (hs : sepB a pat = true) :
    replaceAllL pat rep (a ++ t) = a ++ replaceAllL pat rep t :=
  replaceAllL_append_of_no_match pat rep a t
    fun y hy hne => sepB_no_match hs hy hne t

/-- Counting occurrences skips over a block inside which the pattern cannot
start. -/
theorem countOcc_append_of_no_match (pat : List Char) :
    ∀ (a t : List Char),
      (∀ y ∈ suffs a, y ≠ [] → leadsWith pat (y ++ t) = false) →
      countOcc pat (a ++ t) = countOcc pat t := by
  intro a
  induction a with
  | nil => intro t _; rfl
  | cons c a' ih =>
    intro t h
    have hlead : leadsWith pat ((c :: a') ++ t) = false :=
      h _ (mem_suffs_self _) (by simp)
    rw [List.cons_append] at hlead
    rw [List.cons_append, countOcc_not_lead hlead,
      ih t fun y hy hne => h y (mem_suffs_tail hy) hne]

theorem countOcc_skip (pat : List Char) (a t : List Char) (hs : sepB a pat = true) :
    countOcc pat (a ++ t) = countOcc pat t :=
  countOcc_append_of_no_match pat a t fun y hy hne => sepB_no_match hs hy hne t

/-- Replacing a separated pattern changes no (non-)match of any suffix of `q`
anywhere in the text: matching `q`-suffixes is invariant under the
replacement. -/
theorem leadsWith_replaceAllL (pat rep q : List Char) (hp : pat ≠ [])
    (hqp : sepB q pat = true) (hqr : sepB q rep = true) :
    ∀ (n : Nat) (t : List Char), t.length ≤ n → ∀ y ∈ suffs q, y ≠ [] →
      leadsWith y (replaceAllL pat rep t) = leadsWith y t := by
  intro n
  induction n with
  | zero =>
    intro t ht y _ hne
    have ht0 : t = [] := List.length_eq_zero.mp (Nat.le_zero.mp ht)
    subst ht0
    rw [replaceAllL_nil]
  | succ n ih =>
    intro t ht y hy hne
    cases t with
    | nil => rw [replaceAllL_nil]
    | cons c cs =>
      by_cases hl : leadsWith pat (c :: cs) = true
      · have hdec := leadsWith_eq_append pat (c :: cs) hl
        rw [hdec, replaceAllL_lead pat rep _ hp, leadsWith_append, leadsWith_append]
        obtain ⟨hr1, hr2⟩ := sepB_elim hqr hy hne
        obtain ⟨hp1, hp2⟩ := sepB_elim hqp hy hne
        simp [hr1, hr2, hp1, hp2]
      · rw [replaceAllL_not_lead rep (Bool.not_eq_true _ ▸ hl)]
        cases y with
        | nil => exact absurd rfl hne
        | cons y0 y' =>
          cases y' with
          | nil => simp [leadsWith]
          | cons y1 y'' =>
            have hlen : cs.length ≤ n := by
              have := ht
              simp only [List.length_cons] at this
              omega
            have := ih cs hlen (y1 :: y'') (mem_suffs_of_cons hy) (by simp)
            simp only [leadsWith, this]

/-- If a proper suffix of the replacement text matches somewhere in the
replaced output, it already matched at the same place of the input (proper
suffixes of the replacement cannot arise at replacement sites). -/
theorem lead_pullback (pat rep : List Char) (hp : pat ≠ [])
    (hrep : ∀ y ∈ suffs rep, y ≠ [] → y ≠ rep → leadsWith y rep = false) :
    ∀ (n : Nat) (t : List Char), t.length ≤ n → ∀ y ∈ suffs rep, y ≠ [] → y ≠ rep →
      leadsWith y (replaceAllL pat rep t) = true → leadsWith y t = true := by
  intro n
  induction n with
  | zero =>
    intro t ht y _ _ _ h
    have ht0 : t = [] := List.length_eq_zero.mp (Nat.le_zero.mp ht)
    subst ht0
    rw [replaceAllL_nil] at h
    exact h
  | succ n ih =>
    intro t ht y hy hne hner h
    cases t with
    | nil =>
      rw [replaceAllL_nil] at h
      exact h
    | cons c cs =>
      by_cases hl : leadsWith pat (c :: cs) = true
      · exfalso
        have hdec := leadsWith_eq_append pat (c :: cs) hl
        rw [hdec, replaceAllL_lead pat rep _ hp, leadsWith_append] at h
        have h1 : leadsWith y rep = false := hrep y hy hne hner
        have h2 : leadsWith rep y = false := by
          by_contra hc
          have := leadsWith_length_le (Bool.of_not_eq_false hc)
          have := length_lt_of_mem_suffs_ne hy hner
          omega
        rw [h1, h2] at h
        simp at h
      · rw [replaceAllL_not_lead rep (Bool.not_eq_true _ ▸ hl)] at h
        cases y with
        | nil => exact absurd rfl hne
        | cons y0 y' =>
          cases y' with
          | nil => simpa [leadsWith] using h
          | cons y1 y'' =>
            simp only [leadsWith, Bool.and_eq_true] at h ⊢
            refine ⟨h.1, ?_⟩
            have hy' : (y1 :: y'') ∈ suffs rep := mem_suffs_of_cons hy
            have hner' : (y1 :: y'') ≠ rep := by
              intro hcontra
              have hlt := length_lt_of_mem_suffs_ne hy hner
              have hle := length_le_of_mem_suffs hy
              rw [← hcontra] at hlt hle
              simp only [List.length_cons] at hlt
              omega
            have hlen : cs.length ≤ n := by
              have := ht
              simp only [List.length_cons] at this
              omega
            exact ih cs hlen (y1 :: y'') hy' (by simp) hner' h.2

/-- Replacing a pattern that is fully separated from `q` (no overlaps in
either direction, not inside the other, and `q` does not touch the
replacement text) leaves the number of `q`-occurrences unchanged. -/
theorem countOcc_replaceAllL (p rp q : List Char) (hpne : p ≠ []) (hqne : q ≠ [])
    (hqp : sepB q p = true) (hpq : sepB p q = true)
    (hrq : sepB rp q = true) (hqr : sepB q rp = true) :
    ∀ (n : Nat) (s : List Char), s.length ≤ n →
      countOcc q (replaceAllL p rp s) = countOcc q s := by
  intro n
  induction n with
  | zero =>
    intro s hs
    have hs0 : s = [] := List.length_eq_zero.mp (Nat.le_zero.mp hs)
    subst hs0
    rw [replaceAllL_nil]
  | succ n ih =>
    intro s hs
    cases s with
    | nil => rw [replaceAllL_nil]
    | cons c cs =>
      by_cases hl : leadsWith p (c :: cs) = true
      · have hdec := leadsWith_eq_append p (c :: cs) hl
        have hlen : (List.drop p.length (c :: cs)).length ≤ n := by
          have h1 : (c :: cs).length ≤ n + 1 := hs
          have h2 : 1 ≤ p.length := List.length_pos.mpr hpne
          simp only [List.length_drop, List.length_cons] at *
          omega
        rw [hdec, replaceAllL_lead p rp _ hpne, countOcc_skip q rp _ hrq,
          countOcc_skip q p _ hpq]
        exact ih _ hlen
      · by_cases hql : leadsWith q (c :: cs) = true
        · have hdec := leadsWith_eq_append q (c :: cs) hql
          have hlen : (List.drop q.length (c :: cs)).length ≤ n := by
            have h1 : (c :: cs).length ≤ n + 1 := hs
            have h2 : 1 ≤ q.length := List.length_pos.mpr hqne
            simp only [List.length_drop, List.length_cons] at *
            omega
          rw [hdec, replaceAllL_skip p rp _ _ hqp, countOcc_lead q _ hqne,
            countOcc_lead q _ hqne]
          exact congrArg _ (ih _ hlen)
        · have hlf : leadsWith p (c :: cs) = false := Bool.not_eq_true _ ▸ hl
          have hqlf : leadsWith q (c :: cs) = false := Bool.not_eq_true _ ▸ hql
          have hR : replaceAllL p rp (c :: cs) = c :: replaceAllL p rp cs :=
            replaceAllL_not_lead rp hlf
          have hq2 : leadsWith q (c :: replaceAllL p rp cs) = false := by
            rw [← hR]
            rw [leadsWith_replaceAllL p rp q hpne hqp hqr (c :: cs).length _ le_rfl q
              (mem_suffs_self q) hqne]
            exact hqlf
          have hlen : cs.length ≤ n := by
            have : (c :: cs).length ≤ n + 1 := hs
            simp only [List.length_cons] at this
            omega
          rw [hR, countOcc_not_lead hq2, countOcc_not_lead hqlf]
          exact ih _ hlen

/-- Two fully separated global replacements commute. -/
theorem replaceAllL_comm (p rp q rq : List Char) (hpne : p ≠ []) (hqne : q ≠ [])
    (h1 : sepB p q = true) (h2 : sepB q p = true)
    (h3 : sepB rp q = true) (h4 : sepB q rp = true)
    (h5 : sepB rq p = true) (h6 : sepB p rq = true) :
    ∀ (n : Nat) (s : List Char), s.length ≤ n →
      replaceAllL q rq (replaceAllL p rp s) = replaceAllL p rp (replaceAllL q rq s) := by
  intro n
  induction n with
  | zero =>
    intro s hs
    have hs0 : s = [] := List.length_eq_zero.mp (Nat.le_zero.mp hs)
    subst hs0
    rw [replaceAllL_nil, replaceAllL_nil, replaceAllL_nil]
  | succ n ih =>
    intro s hs
    cases s with
    | nil => rw [replaceAllL_nil, replaceAllL_nil, replaceAllL_nil]
    | cons c cs =>
      by_cases hl : leadsWith p (c :: cs) = true
      · have hdec := leadsWith_eq_append p (c :: cs) hl
        have hlen : (List.drop p.length (c :: cs)).length ≤ n := by
          have ha : (c :: cs).length ≤ n + 1 := hs
          have hb : 1 ≤ p.length := List.length_pos.mpr hpne
          simp only [List.length_drop, List.length_cons] at *
          omega
        rw [hdec, replaceAllL_lead p rp _ hpne, replaceAllL_skip q rq _ _ h3,
          replaceAllL_skip q rq _ _ h1, replaceAllL_lead p rp _ hpne]
        exact congrArg _ (ih _ hlen)
      · by_cases hql : leadsWith q (c :: cs) = true
        · have hdec := leadsWith_eq_append q (c :: cs) hql
          have hlen : (List.drop q.length (c :: cs)).length ≤ n := by
            have ha : (c :: cs).length ≤ n + 1 := hs
            have hb : 1 ≤ q.length := List.length_pos.mpr hqne
            simp only [List.length_drop, List.length_cons] at *
            omega
          rw [hdec, replaceAllL_skip p rp _ _ h2, replaceAllL_lead q rq _ hqne,
            replaceAllL_lead q rq _ hqne, replaceAllL_skip p rp _ _ h5]
          exact congrArg _ (ih _ hlen)
        · have hlf : leadsWith p (c :: cs) = false := Bool.not_eq_true _ ▸ hl
          have hqlf : leadsWith q (c :: cs) = false := Bool.not_eq_true _ ▸ hql
          have hR1 : replaceAllL p rp (c :: cs) = c :: replaceAllL p rp cs :=
            replaceAllL_not_lead rp hlf
          have hR2 : replaceAllL q rq (c :: cs) = c :: replaceAllL q rq cs :=
            replaceAllL_not_lead rq hqlf
          have hq2 : leadsWith q (c :: replaceAllL p rp cs) = false := by
            rw [← hR1]
            rw [leadsWith_replaceAllL p rp q hpne h2 h4 (c :: cs).length _ le_rfl q
              (mem_suffs_self q) hqne]
            exact hqlf
          have hp2 : leadsWith p (c :: replaceAllL q rq cs) = false := by
            rw [← hR2]
            rw [leadsWith_replaceAllL q rq p hqne h1 h6 (c :: cs).length _ le_rfl p
              (mem_suffs_self p) hpne]
            exact hlf
          have hlen : cs.length ≤ n := by
            have : (c :: cs).length ≤ n + 1 := hs
            simp only [List.length_cons] at this
            omega
          rw [hR1, hR2, replaceAllL_not_lead rq hq2, replaceAllL_not_lead rp hp2]
          exact congrArg _ (ih _ hlen)

/-- Replacing "frequent lightning" by its wrapped form turns each occurrence
of the phrase into exactly one occurrence of the wrapped phrase, and creates
no other occurrence of the wrapped phrase. -/
theorem countOcc_flRep_replace :
    ∀ (n : Nat) (u : List Char), u.length ≤ n →
      countOcc flRep (replaceAllL flPat flRep u) = countOcc flPat u := by
  have hflne : flPat ≠ [] := by decide
  have hfrne : flRep ≠ [] := by decide
  intro n
  induction n with
  | zero =>
    intro u hu
    have hu0 : u = [] := List.length_eq_zero.mp (Nat.le_zero.mp hu)
    subst hu0
    rw [replaceAllL_nil, countOcc_nil, countOcc_nil]
  | succ n ih =>
    intro u hu
    cases u with
    | nil => rw [replaceAllL_nil, countOcc_nil, countOcc_nil]
    | cons c cs =>
      by_cases hA : leadsWith flPat (c :: cs) = true
      · have hdec := leadsWith_eq_append flPat (c :: cs) hA
        have hlen : (List.drop flPat.length (c :: cs)).length ≤ n := by
          have ha : (c :: cs).length ≤ n + 1 := hu
          have hb : 1 ≤ flPat.length := List.length_pos.mpr hflne
          simp only [List.length_drop, List.length_cons] at *
          omega
        rw [hdec, replaceAllL_lead _ _ _ hflne, countOcc_lead _ _ hfrne,
          countOcc_lead _ _ hflne]
        exact congrArg _ (ih _ hlen)
      · by_cases hB : leadsWith flRep (c :: cs) = true
        · have hdec := leadsWith_eq_append flRep (c :: cs) hB
          set v := List.drop flRep.length (c :: cs) with hv
          have hlenv : v.length ≤ n := by
            have ha : (c :: cs).length ≤ n + 1 := hu
            have hb : 1 ≤ flRep.length := List.length_pos.mpr hfrne
            simp only [hv, List.length_drop, List.length_cons] at *
            omega
          have hsplit : (c :: cs) = strongOpen ++ (flPat ++ (strongClose ++ v)) := by
            rw [hdec]
            show flRep ++ v = _
            rw [flRep, List.append_assoc, List.append_assoc]
          have hrepl : replaceAllL flPat flRep (c :: cs) =
              strongOpen ++ (flRep ++ (strongClose ++ replaceAllL flPat flRep v)) := by
            rw [hsplit, replaceAllL_skip _ _ _ _ (by decide : sepB strongOpen flPat = true),
              replaceAllL_lead _ _ _ hflne,
              replaceAllL_skip _ _ _ _ (by decide : sepB strongClose flPat = true)]
          rw [hrepl]
          have hnom : ∀ y ∈ suffs strongOpen, y ≠ [] →
              leadsWith flRep (y ++ (flRep ++ (strongClose ++ replaceAllL flPat flRep v))) =
                false := by
            intro y hy hne
            rw [leadsWith_append]
            have hlfy : leadsWith flRep y = false := by
              by_contra hcon
              have h1 := leadsWith_length_le (Bool.of_not_eq_false hcon)
              have h2 := length_le_of_mem_suffs hy
              have h3 : strongOpen.length < flRep.length := by decide
              omega
            by_cases hyeq : y = strongOpen
            · subst hyeq
              have hys : leadsWith strongOpen flRep = true := by decide
              have hdropped : List.drop strongOpen.length flRep = flPat ++ strongClose := by
                rw [flRep]
                exact drop_length_append _ _
              rw [hlfy, hys, hdropped, leadsWith_append]
              simp only [Bool.false_or, Bool.true_and]
              rw [(by decide : leadsWith (flPat ++ strongClose) flRep = false),
                (by decide : leadsWith flRep (flPat ++ strongClose) = false)]
              rfl
            · have hyl : leadsWith y flRep = false := by
                have hdec4 : ∀ z ∈ suffs strongOpen, z ≠ [] → z ≠ strongOpen →
                    leadsWith z flRep = false := by decide
                exact hdec4 y hy hne hyeq
              rw [hlfy, hyl]
              rfl
          rw [countOcc_append_of_no_match flRep strongOpen _ hnom,
            countOcc_lead _ _ hfrne,
            countOcc_skip _ _ _ (by decide : sepB strongClose flRep = true),
            ih _ hlenv, hsplit,
            countOcc_skip _ _ _ (by decide : sepB strongOpen flPat = true),
            countOcc_lead _ _ hflne,
            countOcc_skip _ _ _ (by decide : sepB strongClose flPat = true)]
        · have hAf : leadsWith flPat (c :: cs) = false := Bool.not_eq_true _ ▸ hA
          have hBf : leadsWith flRep (c :: cs) = false := Bool.not_eq_true _ ▸ hB
          have hR : replaceAllL flPat flRep (c :: cs) = c :: replaceAllL flPat flRep cs :=
            replaceAllL_not_lead flRep hAf
          have hlen : cs.length ≤ n := by
            have : (c :: cs).length ≤ n + 1 := hu
            simp only [List.length_cons] at this
            omega
          have hnl : leadsWith flRep (c :: replaceAllL flPat flRep cs) = false := by
            by_contra hcon
            have hcon' := Bool.of_not_eq_false hcon
            obtain ⟨hhead, htail⟩ := leadsWith_cons_elim hcon' hfrne
            have hmem : flRep.tail ∈ suffs flRep := tail_mem_suffs flRep hfrne
            have hpull := lead_pullback flPat flRep hflne
              (by decide : ∀ y ∈ suffs flRep, y ≠ [] → y ≠ flRep →
                leadsWith y flRep = false)
              cs.length cs le_rfl flRep.tail hmem
              (by decide : flRep.tail ≠ []) (by decide : flRep.tail ≠ flRep) htail
            have : leadsWith flRep (c :: cs) = true := leadsWith_cons_intro hhead hpull
            rw [this] at hBf
            exact Bool.true_eq_false ▸ hBf
          rw [hR, countOcc_not_lead hnl, countOcc_not_lead hAf]
          exact ih _ hlen

theorem ne_nil_of_not_isEmpty {l : List Char} (h : (!l.isEmpty) = true) : l ≠ [] := by
  cases l <;> simp_all

theorem stepApply_comm_of_commOK {a b : List Char × List Char}
    (h : commOK a b = true) (s : List Char) :
    stepApply b (stepApply a s) = stepApply a (stepApply b s) := by
  simp only [commOK, Bool.and_eq_true] at h
  obtain ⟨⟨⟨⟨⟨⟨⟨hane, hbne⟩, h1⟩, h2⟩, h3⟩, h4⟩, h5⟩, h6⟩ := h
  exact replaceAllL_comm a.1 a.2 b.1 b.2 (ne_nil_of_not_isEmpty hane)
    (ne_nil_of_not_isEmpty hbne) h1 h2 h3 h4 h5 h6 s.length s le_rfl

theorem pairwise_comm : ∀ a ∈ stepsList, ∀ b ∈ stepsList, ∀ s,
    stepApply a (stepApply b s) = stepApply b (stepApply a s) := by
  have hall : ∀ a ∈ stepsList, ∀ b ∈ stepsList, a = b ∨ commOK a b = true := by decide
  intro a ha b hb s
  rcases hall a ha b hb with rfl | h
  · rfl
  · exact (stepApply_comm_of_commOK h s).symm

/-- The six highlighting replacements may be applied in any order. -/
theorem applySteps_perm : ∀ {l₁ l₂ : List (List Char × List Char)}, l₁.Perm l₂ →
    (∀ x ∈ l₁, x ∈ stepsList) → ∀ s, applySteps l₁ s = applySteps l₂ s := by
  intro l₁ l₂ hperm
  induction hperm with
  | nil => intro _ _; rfl
  | cons x _ ih =>
    intro hmem s
    simp only [applySteps, List.foldl_cons] at *
    exact ih (fun y hy => hmem y (List.mem_cons_of_mem _ hy)) _
  | swap x y l =>
    intro hmem s
    simp only [applySteps, List.foldl_cons]
    rw [pairwise_comm x (hmem x (by simp)) y (hmem y (by simp)) s]
  | trans h1 _ ih1 ih2 =>
    intro hmem s
    rw [ih1 hmem s, ih2 (fun y hy => hmem y ((h1.mem_iff).mpr hy)) s]

theorem clean_mono {B B' : List (List Char)} (hsub : ∀ b ∈ B, b ∈ B') :
    ∀ {s : List Char}, Clean B s → Clean B' s := by
  intro s h
  induction h with
  | nil => exact Clean.nil
  | chr c t hc _ ih => exact Clean.chr c t hc ih
  | blk b t hb hbne _ ih => exact Clean.blk b t (hsub b hb) hbne ih

theorem clean_of_no_lt {B : List (List Char)} :
    ∀ {s : List Char}, (∀ c ∈ s, c ≠ '<') → Clean B s := by
  intro s
  induction s with
  | nil => intro _; exact Clean.nil
  | cons c cs ih =>
    intro h
    exact Clean.chr c cs (h c (by simp)) (ih fun d hd => h d (List.mem_cons_of_mem _ hd))

theorem clean_inv {B : List (List Char)} {s : List Char} (h : Clean B s) :
    s = [] ∨ (∃ c t, c ≠ '<' ∧ s = c :: t ∧ Clean B t) ∨
      (∃ b t, b ∈ B ∧ b ≠ [] ∧ s = b ++ t ∧ Clean B t) := by
  cases h with
  | nil => exact Or.inl rfl
  | chr c t hc ht => exact Or.inr (Or.inl ⟨c, t, hc, rfl, ht⟩)
  | blk b t hb hbne ht => exact Or.inr (Or.inr ⟨b, t, hb, hbne, rfl, ht⟩)

/-- Dropping a matched pattern suffix-by-suffix keeps the interleaving
structure, provided the pattern cannot overlap any block. -/
theorem clean_drop {pat : List Char} {B : List (List Char)}
    (hcond : ∀ b ∈ B, sepB pat b = true) :
    ∀ {s : List Char}, Clean B s → ∀ y ∈ suffs pat, leadsWith y s = true →
      Clean B (List.drop y.length s) := by
  intro s h
  induction h with
  | nil =>
    intro y _ hy2
    cases y with
    | nil => exact Clean.nil
    | cons y0 y' => simp [leadsWith] at hy2
  | chr c t hc _ ih =>
    intro y hy hy2
    cases y with
    | nil => exact Clean.chr c t hc (by simpa using ih [] (by assumption) rfl)
    | cons y0 y' =>
      simp only [leadsWith, Bool.and_eq_true] at hy2
      simp only [List.length_cons, List.drop_succ_cons]
      exact ih y' (mem_suffs_of_cons hy) hy2.2
  | blk b t hb hbne ht ih =>
    intro y hy hy2
    cases hyn : y with
    | nil => simpa using Clean.blk b t hb hbne ht
    | cons y0 y' =>
      exfalso
      rw [hyn] at hy2
      have := sepB_no_match (hcond b hb) hy (by simp [hyn]) t
      rw [hyn] at this
      rw [leadsWith_append] at hy2
      obtain ⟨e1, e2⟩ := sepB_elim (hcond b hb) hy (by simp [hyn])
      rw [hyn] at e1 e2
      rw [e1, e2] at hy2
      simp at hy2

/-- Applying one replacement step to an interleaving over blocks `B` (with
the pattern unable to overlap any block of `B`) yields an interleaving over
`rep :: B`. -/
theorem clean_replace (pat rep : List Char) (B : List (List Char)) (hp : pat ≠ [])
    (hrne : rep ≠ []) (hcond : ∀ b ∈ B, sepB b pat = true ∧ sepB pat b = true) :
    ∀ (n : Nat) (s : List Char), s.length ≤ n → Clean B s →
      Clean (rep :: B) (replaceAllL pat rep s) := by
  intro n
  induction n with
  | zero =>
    intro s hs _
    have hs0 : s = [] := List.length_eq_zero.mp (Nat.le_zero.mp hs)
    subst hs0
    rw [replaceAllL_nil]
    exact Clean.nil
  | succ n ih =>
    intro s hs hcl
    rcases clean_inv hcl with rfl | ⟨c, t, hc, rfl, ht⟩ | ⟨b, t, hb, hbne, rfl, ht⟩
    · rw [replaceAllL_nil]; exact Clean.nil
    · by_cases hl : leadsWith pat (c :: t) = true
      · have hdec := leadsWith_eq_append pat (c :: t) hl
        have hu : Clean B (List.drop pat.length (c :: t)) :=
          clean_drop (fun b hb => (hcond b hb).2) hcl pat (mem_suffs_self pat) hl
        have hlen : (List.drop pat.length (c :: t)).length ≤ n := by
          have ha : (c :: t).length ≤ n + 1 := hs
          have hbp : 1 ≤ pat.length := List.length_pos.mpr hp
          simp only [List.length_drop, List.length_cons] at *
          omega
        rw [hdec, replaceAllL_lead pat rep _ hp]
        exact Clean.blk rep _ (by simp) hrne (ih _ hlen hu)
      · have hlen : t.length ≤ n := by
          have : (c :: t).length ≤ n + 1 := hs
          simp only [List.length_cons] at this
          omega
        rw [replaceAllL_not_lead rep (Bool.not_eq_true _ ▸ hl)]
        exact Clean.chr c _ hc (ih _ hlen ht)
    · have hlen : t.length ≤ n := by
        have ha : (b ++ t).length ≤ n + 1 := hs
        have hbp : 1 ≤ b.length := List.length_pos.mpr hbne
        simp only [List.length_append] at ha
        omega
      rw [replaceAllL_skip pat rep _ _ (hcond b hb).1]
      exact Clean.blk b _ (List.mem_cons_of_mem _ hb) hbne (ih _ hlen ht)

/-- A pattern starting with `'<'` that cannot start inside any block never
occurs in an interleaving of non-`'<'` characters and such blocks. -/
theorem clean_count_zero {q : List Char} (hq : q.head? = some '<')
    {B : List (List Char)} (hb : ∀ b ∈ B, sepB b q = true) :
    ∀ {s : List Char}, Clean B s → countOcc q s = 0 := by
  intro s h
  induction h with
  | nil => exact countOcc_nil q
  | chr c t hc _ ih =>
    have hqne : q ≠ [] := by
      intro h0
      rw [h0] at hq
      simp at hq
    have hnl : leadsWith q (c :: t) = false := by
      by_contra hcon
      obtain ⟨hh, _⟩ := leadsWith_cons_elim (Bool.of_not_eq_false hcon) hqne
      rw [hq] at hh
      exact hc (Option.some.inj hh).symm
    rw [countOcc_not_lead hnl]
    exact ih
  | blk b t hbm _ _ ih =>
    rw [countOcc_skip q b t (hb b hbm)]
    exact ih

/-- The highlighting pipeline turns the unique "frequent lightning"
occurrence into exactly one occurrence of the wrapped phrase. -/
theorem countOcc_flRep_highlight (s : List Char) (h1 : countOcc flPat s = 1) :
    countOcc flRep (highlightL s) = 1 := by
  have e : highlightL s =
      replaceAllL cglPat cglRep (replaceAllL dlPat dlRep (replaceAllL flPat flRep
        (replaceAllL advPat advRep (replaceAllL watchPat watchRep
          (replaceAllL warnPat warnRep s))))) := rfl
  rw [e]
  rw [countOcc_replaceAllL cglPat cglRep flRep (by decide) (by decide) (by decide)
    (by decide) (by decide) (by decide) _ _ le_rfl]
  rw [countOcc_replaceAllL dlPat dlRep flRep (by decide) (by decide) (by decide)
    (by decide) (by decide) (by decide) _ _ le_rfl]
  rw [countOcc_flRep_replace _ _ le_rfl]
  rw [countOcc_replaceAllL advPat advRep flPat (by decide) (by decide) (by decide)
    (by decide) (by decide) (by decide) _ _ le_rfl]
  rw [countOcc_replaceAllL watchPat watchRep flPat (by decide) (by decide) (by decide)
    (by decide) (by decide) (by decide) _ _ le_rfl]
  rw [countOcc_replaceAllL warnPat warnRep flPat (by decide) (by decide) (by decide)
    (by decide) (by decide) (by decide) _ _ le_rfl]
  exact h1

/-- On markup-free input the highlighting pipeline never produces nested
`<strong><strong>` markup. -/
theorem countOcc_dsPat_highlight (s : List Char) (h2 : ∀ c ∈ s, c ≠ '<') :
    countOcc dsPat (highlightL s) = 0 := by
  have c0 : Clean ([] : List (List Char)) s := clean_of_no_lt h2
  have c1 : Clean [warnRep] (replaceAllL warnPat warnRep s) :=
    clean_replace warnPat warnRep [] (by decide) (by decide) (by simp) _ s le_rfl c0
  have c2 : Clean [watchRep, warnRep]
      (replaceAllL watchPat watchRep (replaceAllL warnPat warnRep s)) :=
    clean_replace watchPat watchRep [warnRep] (by decide) (by decide) (by decide)
      _ _ le_rfl c1
  have c3 : Clean [advRep, watchRep, warnRep]
      (replaceAllL advPat advRep (replaceAllL watchPat watchRep
        (replaceAllL warnPat warnRep s))) :=
    clean_replace advPat advRep [watchRep, warnRep] (by decide) (by decide) (by decide)
      _ _ le_rfl c2
  have c4 : Clean [flRep, advRep, watchRep, warnRep]
      (replaceAllL flPat flRep (replaceAllL advPat advRep (replaceAllL watchPat watchRep
        (replaceAllL warnPat warnRep s)))) :=
    clean_replace flPat flRep [advRep, watchRep, warnRep] (by decide) (by decide)
      (by decide) _ _ le_rfl c3
  have c5 : Clean [dlRep, flRep, advRep, watchRep, warnRep]
      (replaceAllL dlPat dlRep (replaceAllL flPat flRep (replaceAllL advPat advRep
        (replaceAllL watchPat watchRep (replaceAllL warnPat warnRep s))))) :=
    clean_replace dlPat dlRep [flRep, advRep, watchRep, warnRep] (by decide) (by decide)
      (by decide) _ _ le_rfl c4
  have c6 : Clean [cglRep, dlRep, flRep, advRep, watchRep, warnRep] (highlightL s) := by
    have e : highlightL s =
        replaceAllL cglPat cglRep (replaceAllL dlPat dlRep (replaceAllL flPat flRep
          (replaceAllL advPat advRep (replaceAllL watchPat watchRep
            (replaceAllL warnPat warnRep s))))) := rfl
    rw [e]
    exact clean_replace cglPat cglRep [dlRep, flRep, advRep, watchRep, warnRep]
      (by decide) (by decide) (by decide) _ _ le_rfl c5
  exact clean_count_zero (by decide) (by decide) c6

/-- C8 (confirmed): for every condition string — markup-free, as the
composer produces them — containing exactly one literal occurrence of
"frequent lightning", the renderer's highlighting transform wraps that
phrase in the fixed `<strong>` markup exactly once (exactly one occurrence
of the wrapped phrase and no nested `<strong><strong>` double-wrapping, even
when the phrase is adjacent to "WARNINGS" text), and the six target
substrings are wrapped independently of the order of the replacement
steps. -/
theorem c8_highlight_wraps_exactly_once (s : List Char)
    (h1 : countOcc flPat s = 1) (h2 : ∀ c ∈ s, c ≠ '<') :
    countOcc flRep (highlightL s) = 1 ∧
    countOcc dsPat (highlightL s) = 0 ∧
    ∀ l, l.Perm stepsList → applySteps l s = highlightL s := by
  refine ⟨countOcc_flRep_highlight s h1, countOcc_dsPat_highlight s h2, ?_⟩
  intro l hl
  exact applySteps_perm hl (fun x hx => hl.subset hx) s

/-- C8 witness: the theorem instantiated at a concrete condition string in
which "frequent lightning" sits next to "WARNINGS" text. -/
theorem c8_highlight_wraps_exactly_once_witness :
    countOcc flPat sWitness = 1 ∧ (∀ c ∈ sWitness, c ≠ '<') ∧
      (countOcc flRep (highlightL sWitness) = 1 ∧
       countOcc dsPat (highlightL sWitness) = 0 ∧
       ∀ l, l.Perm stepsList → applySteps l sWitness = highlightL sWitness) :=
  ⟨by decide, by decide, c8_highlight_wraps_exactly_once sWitness (by decide) (by decide)⟩

/-- C7 (confirmed): every alert whose `expires` timestamp is at or before
"now" is excluded from the warning, watch and advisory groups of
`processAlerts`; the boundary is strict, so an alert expiring exactly at
"now" is excluded. -/
theorem c7_expired_alert_excluded (alerts : List AlertRec) (now : Int)
    (a : AlertRec) (h : a.expires ≤ now) :
    a ∉ warningsOf (activeAlerts alerts now) ∧
    a ∉ watchesOf (activeAlerts alerts now) ∧
    a ∉ advisoriesOf (activeAlerts alerts now) := by
  have hact : a ∉ activeAlerts alerts now := by
    intro hmem
    rw [activeAlerts, List.mem_filter] at hmem
    have := of_decide_eq_true hmem.2
    omega
  refine ⟨fun hm => hact ?_, fun hm => hact ?_, fun hm => hact ?_⟩
  · exact (List.mem_filter.mp hm).1
  · exact (List.mem_filter.mp hm).1
  · exact (List.mem_filter.mp hm).1

/-- C7 witness: an alert expiring exactly at "now" lands in no group. -/
theorem c7_expired_alert_excluded_witness :
    (AlertRec.mk "Flood Warning" "Severe" 5).expires ≤ (5 : Int) ∧
    ((AlertRec.mk "Flood Warning" "Severe" 5) ∉
        warningsOf (activeAlerts [AlertRec.mk "Flood Warning" "Severe" 5] 5) ∧
     (AlertRec.mk "Flood Warning" "Severe" 5) ∉
        watchesOf (activeAlerts [AlertRec.mk "Flood Warning" "Severe" 5] 5) ∧
     (AlertRec.mk "Flood Warning" "Severe" 5) ∉
        advisoriesOf (activeAlerts [AlertRec.mk "Flood Warning" "Severe" 5] 5)) :=
  ⟨by decide, c7_expired_alert_excluded [AlertRec.mk "Flood Warning" "Severe" 5] 5
    (AlertRec.mk "Flood Warning" "Severe" 5) (by decide)⟩

/-- C2 counterexample: on the alerts branch with zero active alerts and
`isHotSeason = false`, `processAlerts` does not return the fixed
"no significant hazards" sentence — the seasonal reminder is always
appended, so the accumulated string is never empty. -/
theorem c2_counterexample :
    processAlerts "Tennessee" [] false 0 ≠
      "No significant weather hazards reported for Tennessee at this time." := by
  decide

/-- C2 (corrected): with zero active alerts and `isHotSeason = false`,
`processAlerts` returns the fixed generic seasonal sentence (which does not
name the jurisdiction); the "no significant hazards" fallback is unreachable
on this branch because the seasonal reminder is always appended. -/
theorem c2_zero_alerts_cold_returns_seasonal (state : String)
    (alerts : List AlertRec) (now : Int) (h : activeAlerts alerts now = []) :
    processAlerts state alerts false now =
      "Typical seasonal weather patterns expected. Monitor for changing conditions. " := by
  simp only [processAlerts, h, List.length_nil, Nat.lt_irrefl, if_false,
    getSeasonalConditions, Bool.false_eq_true]
  rw [if_neg (by decide)]
  decide

/-- C2 witness: the corrected statement at a concrete jurisdiction. -/
theorem c2_zero_alerts_cold_returns_seasonal_witness :
    activeAlerts [] (0 : Int) = [] ∧
    processAlerts "Georgia" [] false 0 =
      "Typical seasonal weather patterns expected. Monitor for changing conditions. " :=
  ⟨rfl, c2_zero_alerts_cold_returns_seasonal "Georgia" [] 0 rfl⟩

theorem stateFragments_fold (wd : String → Option String) :
    ∀ (L : List (String × String)) (acc : List (String × String)),
      (L.foldl (fun acc pr =>
        if ((wd pr.1).getD "") ≠ "" then
          acc ++ [(pr.1, String.mk (highlightL ((wd pr.1).getD "").toList))]
        else acc) acc).map Prod.fst =
        acc.map Prod.fst ++ (L.map Prod.fst).filter fun st => (wd st).getD "" ≠ "" := by
  intro L
  induction L with
  | nil => intro acc; simp
  | cons p ps ih =>
    intro acc
    simp only [List.foldl_cons, List.map_cons, List.filter_cons]
    by_cases hw : ((wd p.1).getD "") ≠ ""
    · rw [if_pos hw, ih]
      simp [hw]
    · rw [if_neg hw, ih]
      simp [hw]

/-- C10 (confirmed): for each of the 8 catalog jurisdictions and both season
flags, the fallback composer returns a non-empty string beginning with the
fixed season-opening sentence; and the report's state-line loop renders
exactly one line per present jurisdiction, in fixed catalog order. -/
theorem c10_fallback_and_state_lines :
    (∀ state ∈ catalogStates, ∀ isHot : Bool,
      generateFallbackConditions state isHot ≠ "" ∧
      leadsWith (seasonOpening state isHot).toList
        (generateFallbackConditions state isHot).toList = true) ∧
    ∀ wd : String → Option String,
      (stateFragments wd).map Prod.fst =
        catalogStates.filter fun st => (wd st).getD "" ≠ "" := by
  constructor
  · decide
  · intro wd
    have h := stateFragments_fold wd WEATHER_OFFICES []
    simpa [stateFragments, catalogStates] using h

/-- C10 witness: the nonemptiness and opening-sentence facts at a concrete
jurisdiction and season, and the state-line order for a concrete partial
weather-data map. -/
theorem c10_fallback_and_state_lines_witness :
    "Florida" ∈ catalogStates ∧
    (generateFallbackConditions "Florida" true ≠ "" ∧
      leadsWith (seasonOpening "Florida" true).toList
        (generateFallbackConditions "Florida" true).toList = true) ∧
    (stateFragments wdW).map Prod.fst =
      catalogStates.filter fun st => (wdW st).getD "" ≠ "" :=
  ⟨by decide, c10_fallback_and_state_lines.1 "Florida" (by decide) true,
   c10_fallback_and_state_lines.2 wdW⟩

/-- C1 counterexample: for the structured response with areas
`[{chance7day:"40%"}, {chance2day:"70%"}]`, the resolver reports "40%" —
the 7-day maximum takes priority — not the overall maximum "70%" that the
claim states. -/
theorem c1_counterexample :
    (getTropicalOutlook (Except.ok areasCex) (Except.ok none)
      (Except.ok []) 6).formation_chance = "40%" ∧
    (getTropicalOutlook (Except.ok areasCex) (Except.ok none)
      (Except.ok []) 6).formation_chance ≠ "70%" := by
  constructor <;> decide

theorem structuredPass_eq :
    ∀ (areas : List NHCArea) (a2 a7 : Int) (s : String),
      areas.foldl (fun acc area =>
        (match area.chance2day with
          | some c => max acc.1 (parsePct c)
          | none => acc.1,
         match area.chance7day with
          | some c => max acc.2.1 (parsePct c)
          | none => acc.2.1,
         match area.text with
          | some t => acc.2.2 ++ (t ++ " ")
          | none => acc.2.2)) (a2, a7, s) =
      (areas.foldl (fun m a =>
        match a.chance2day with
        | some c => max m (parsePct c)
        | none => m) a2,
       areas.foldl (fun m a =>
        match a.chance7day with
        | some c => max m (parsePct c)
        | none => m) a7,
       areas.foldl (fun t a =>
        match a.text with
        | some x => t ++ (x ++ " ")
        | none => t) s) := by
  intro areas
  induction areas with
  | nil => intro a2 a7 s; rfl
  | cons a as ih =>
    intro a2 a7 s
    simp only [List.foldl_cons]
    rw [ih]

/-- C1 (corrected): the structured branch's formation chance is the maximum
7-day probability across all areas when that is positive, otherwise the
maximum 2-day probability when positive, otherwise "0%"; the 2-day field is
not merged into one overall maximum. -/
theorem c1_formation_chance_seven_day_priority (areas : List NHCArea)
    (hne : 0 < areas.length) :
    (getTropicalOutlookStructured areas).formation_chance =
      (if 0 < max7Spec areas then toString (max7Spec areas) ++ "%"
       else if 0 < max2Spec areas then toString (max2Spec areas) ++ "%"
       else "0%") ∧
    (method1 (Except.ok areas)).isSome = true := by
  constructor
  · have hp : structuredPass areas = (max2Spec areas, max7Spec areas, textSpec areas) :=
      structuredPass_eq areas 0 0 ""
    simp only [getTropicalOutlookStructured, hp]
  · simp [method1, hne]

/-- C1 witness: the corrected statement evaluated on the claim's own
input. -/
theorem c1_formation_chance_seven_day_priority_witness :
    0 < areasCex.length ∧
    ((getTropicalOutlookStructured areasCex).formation_chance =
      (if 0 < max7Spec areasCex then toString (max7Spec areasCex) ++ "%"
       else if 0 < max2Spec areasCex then toString (max2Spec areasCex) ++ "%"
       else "0%") ∧
     (method1 (Except.ok areasCex)).isSome = true) :=
  ⟨by decide, c1_formation_chance_seven_day_priority areasCex (by decide)⟩

theorem append_ne_empty_right (a b : String) (hb : b ≠ "") : a ++ b ≠ "" := by
  cases a with
  | mk la =>
    cases b with
    | mk lb =>
      intro hcontra
      have hd : la ++ lb = [] := congrArg String.data hcontra
      rcases List.append_eq_nil.mp hd with ⟨-, rfl⟩
      exact hb rfl

theorem structured_fields_ne (areas : List NHCArea) :
    (getTropicalOutlookStructured areas).outlook ≠ "" ∧
    (getTropicalOutlookStructured areas).formation_chance ≠ "" := by
  simp only [getTropicalOutlookStructured]
  constructor
  · split_ifs with h
    · decide
    · exact h
  · split_ifs with h1 h2
    · exact append_ne_empty_right _ "%" (by decide)
    · exact append_ne_empty_right _ "%" (by decide)
    · decide

theorem method1_fields {s1 : Except String (List NHCArea)} {t : TropicalOutlook}
    (h : method1 s1 = some t) : t.outlook ≠ "" ∧ t.formation_chance ≠ "" := by
  cases s1 with
  | error e => simp [method1] at h
  | ok areas =>
    simp only [method1] at h
    by_cases hl : 0 < areas.length
    · rw [if_pos hl] at h
      obtain rfl : getTropicalOutlookStructured areas = t := Option.some.inj h
      exact structured_fields_ne areas
    · rw [if_neg hl] at h
      simp at h

theorem method2_fields {s2 : Except String (Option (Nat × String))}
    {t : TropicalOutlook} (h : method2 s2 = some t) :
    t.outlook ≠ "" ∧ t.formation_chance ≠ "" := by
  cases s2 with
  | error e => simp [method2] at h
  | ok o =>
    cases o with
    | none => simp [method2] at h
    | some pr =>
      simp only [method2] at h
      by_cases hc : 0 < pr.1 ∨ pr.2 ≠ ""
      · rw [if_pos hc] at h
        obtain rfl := Option.some.inj h
        constructor
        · by_cases hne : pr.2 ≠ ""
          · simp only [if_pos hne]
            exact hne
          · simp only [if_neg hne]
            show rssDefaultOutlook ≠ ""
            decide
        · by_cases hp : 0 < pr.1
          · simp only [if_pos hp]
            exact append_ne_empty_right _ "%" (by decide)
          · simp only [if_neg hp]
            show ("0%" : String) ≠ ""
            decide
      · rw [if_neg hc] at h
        simp at h

theorem method3_fields {s3 : Except String (List (Option String))}
    {t : TropicalOutlook} (h : method3 s3 = some t) :
    t.outlook ≠ "" ∧ t.formation_chance ≠ "" := by
  cases s3 with
  | error e => simp [method3] at h
  | ok storms =>
    simp only [method3] at h
    by_cases hl : 0 < storms.length
    · rw [if_pos hl] at h
      obtain rfl := Option.some.inj h
      refine ⟨append_ne_empty_right _ _ (by decide), ?_⟩
      show ("Active Systems" : String) ≠ ""
      decide
    · rw [if_neg hl] at h
      simp at h

theorem seasonalFallback_fields (month : Nat) :
    (seasonalFallback month).outlook ≠ "" ∧
    (seasonalFallback month).formation_chance ≠ "" := by
  unfold seasonalFallback
  split_ifs <;> exact ⟨by decide, by decide⟩

/-- C5 (confirmed): for every combination of source outcomes — including all
sources failing and any source throwing — the resolver returns a structured
`TropicalOutlook` with non-empty fields through the `Except` layer, never an
error. -/
theorem c5_resolver_never_raises (s1 : Except String (List NHCArea))
    (s2 : Except String (Option (Nat × String)))
    (s3 : Except String (List (Option String))) (month : Nat) :
    ∃ t : TropicalOutlook, getTropicalOutlookE s1 s2 s3 month = Except.ok t ∧
      t.outlook ≠ "" ∧ t.formation_chance ≠ "" := by
  refine ⟨getTropicalOutlook s1 s2 s3 month, rfl, ?_⟩
  unfold getTropicalOutlook
  cases hm1 : method1 s1 with
  | some t => exact method1_fields hm1
  | none =>
    cases hm2 : method2 s2 with
    | some t => exact method2_fields hm2
    | none =>
      cases hm3 : method3 s3 with
      | some t => exact method3_fields hm3
      | none => exact seasonalFallback_fields month

/-- C6 (confirmed): when every source fails, the terminal fallback is decided
by the month of "now": July (zero-based month 6) yields the non-numeric
descriptive token "Check NHC" (never "0%"), and January (month 0) yields
exactly "0%". -/
theorem c6_terminal_fallback_by_month (s1 : Except String (List NHCArea))
    (s2 : Except String (Option (Nat × String)))
    (s3 : Except String (List (Option String)))
    (h1 : method1 s1 = none) (h2 : method2 s2 = none) (h3 : method3 s3 = none) :
    (getTropicalOutlook s1 s2 s3 6).formation_chance = "Check NHC" ∧
    (getTropicalOutlook s1 s2 s3 6).formation_chance ≠ "0%" ∧
    ((getTropicalOutlook s1 s2 s3 6).formation_chance.toList.all fun c =>
      !c.isDigit) = true ∧
    (getTropicalOutlook s1 s2 s3 0).formation_chance = "0%" := by
  unfold getTropicalOutlook
  rw [h1, h2, h3]
  exact ⟨by decide, by decide, by decide, by decide⟩

/-- C6 witness: a throwing first source, an RSS source with no usable signal
and an empty storm list. -/
theorem c6_terminal_fallback_by_month_witness :
    method1 (Except.error "boom") = none ∧
    method2 (Except.ok none) = none ∧
    method3 (Except.ok []) = none ∧
    ((getTropicalOutlook (Except.error "boom") (Except.ok none)
        (Except.ok []) 6).formation_chance = "Check NHC" ∧
     (getTropicalOutlook (Except.error "boom") (Except.ok none)
        (Except.ok []) 6).formation_chance ≠ "0%" ∧
     ((getTropicalOutlook (Except.error "boom") (Except.ok none)
        (Except.ok []) 6).formation_chance.toList.all fun c => !c.isDigit) = true ∧
     (getTropicalOutlook (Except.error "boom") (Except.ok none)
        (Except.ok []) 0).formation_chance = "0%") :=
  ⟨rfl, rfl, rfl, c6_terminal_fallback_by_month _ _ _ rfl rfl rfl⟩

/-- C9 (confirmed): the composer's hot-season window (zero-based months 4-9,
May-October) and the resolver's hurricane-season window (months 5-10,
June-November) are different: in May (month 4) the composer uses hot-season
text while the terminal fallback reports "0%" as outside hurricane season,
and in November (month 10) the composer uses cold-season text while the
terminal fallback reports the non-"0%" token "Check NHC". -/
theorem c9_two_season_windows (state : String) :
    isHotSeason 4 = true ∧ isHurricaneSeason 4 = false ∧
    (seasonalFallback 4).formation_chance = "0%" ∧
    getSeasonalConditions state (isHotSeason 4) =
      "Monitor for heat stress during outdoor activities. Stay hydrated and seek air conditioning during peak heating hours. " ∧
    isHotSeason 10 = false ∧ isHurricaneSeason 10 = true ∧
    (seasonalFallback 10).formation_chance = "Check NHC" ∧
    (seasonalFallback 10).formation_chance ≠ "0%" ∧
    getSeasonalConditions state (isHotSeason 10) =
      "Typical seasonal weather patterns expected. Monitor for changing conditions. " :=
  ⟨by decide, by decide, by decide, rfl, by decide, by decide, by decide, by decide, rfl⟩

theorem splitOnFirst_at (pat : List Char) (hpne : pat ≠ []) :
    ∀ (a t : List Char), sepB a pat = true →
      splitOnFirst pat (a ++ (pat ++ t)) = some (a, t) := by
  intro a
  induction a with
  | nil =>
    intro t _
    obtain ⟨p, ps, rfl⟩ : ∃ p ps, pat = p :: ps := by
      cases pat
      · exact absurd rfl hpne
      · exact ⟨_, _, rfl⟩
    have h1 : leadsWith (p :: ps) ((p :: ps) ++ t) = true := leadsWith_refl_append _ _
    rw [List.cons_append] at h1
    rw [List.nil_append, List.cons_append, splitOnFirst]
    simp only [h1, if_true]
    rw [List.length_cons, List.drop_succ_cons, drop_length_append]
  | cons c a' ih =>
    intro t hs
    have hlead : leadsWith pat ((c :: a') ++ (pat ++ t)) = false :=
      sepB_no_match hs (mem_suffs_self _) (by simp) (pat ++ t)
    rw [List.cons_append] at hlead
    rw [List.cons_append, splitOnFirst]
    simp [hlead, ih t (sepB_tail hs)]

theorem expandDollar_id (m b a : List Char) :
    ∀ (l : List Char), (∀ c ∈ l, c ≠ '$') → expandDollar m b a l = l := by
  intro l
  induction l with
  | nil => intro _; rfl
  | cons c rest ih =>
    intro h
    have hc : c ≠ '$' := h c (by simp)
    cases rest with
    | nil => rfl
    | cons d rest2 =>
      rw [expandDollar, if_neg hc]
      exact congrArg _ (ih fun e he => h e (List.mem_cons_of_mem _ he))

/-- C3 counterexample: inserting a fragment that itself contains `"</div>"`
(as every actually rendered report fragment does) and re-extracting with the
same lazy pattern returns only the part of the fragment before its first
`"</div>"`, not the fragment. -/
theorem c3_counterexample :
    extractDiv (replaceFirstDiv tmplCex fragCex) ≠ some fragCex ∧
    extractDiv (replaceFirstDiv tmplCex fragCex) = some "x".toList := by
  constructor <;> decide

/-- C3 (corrected): the round trip holds for templates whose first
opening-marker occurrence is the placeholder's, provided the inserted
fragment contains no `"</div>"` and no `'$'` (and the placeholder's old
content contains no early `"</div>"`); nothing outside the placeholder is
changed.  For fragments containing `"</div>"` — in particular every real
rendered report — re-extraction truncates at the fragment's first
`"</div>"`. -/
theorem c3_roundtrip_for_divfree_fragments (pre mid post frag : List Char)
    (h1 : sepB pre openerP = true) (h2 : sepB mid closeP = true)
    (h3 : sepB frag closeP = true)
    (h4 : (frag.all fun c => c != '$') = true) :
    replaceFirstDiv (pre ++ (openerP ++ (mid ++ (closeP ++ post)))) frag =
      pre ++ (openerP ++ (frag ++ (closeP ++ post))) ∧
    extractDiv (pre ++ (openerP ++ (frag ++ (closeP ++ post)))) = some frag := by
  have hop : ∀ c ∈ openerP, c ≠ '$' := by decide
  have hcl : ∀ c ∈ closeP, c ≠ '$' := by decide
  have hdfree : ∀ c ∈ openerP ++ (frag ++ closeP), c ≠ '$' := by
    intro c hc
    rcases List.mem_append.mp hc with hc1 | hc2
    · exact hop c hc1
    · rcases List.mem_append.mp hc2 with hc3 | hc4
      · have := List.all_eq_true.mp h4 c hc3
        simpa using this
      · exact hcl c hc4
  constructor
  · unfold replaceFirstDiv
    rw [splitOnFirst_at openerP (by decide) pre (mid ++ (closeP ++ post)) h1]
    show (match splitOnFirst closeP (mid ++ (closeP ++ post)) with
      | none => pre ++ (openerP ++ (mid ++ (closeP ++ post)))
      | some pr2 =>
        pre ++ (expandDollar (openerP ++ (pr2.1 ++ closeP)) pre pr2.2
          (openerP ++ (frag ++ closeP)) ++ pr2.2)) = _
    rw [splitOnFirst_at closeP (by decide) mid post h2]
    show pre ++ (expandDollar (openerP ++ (mid ++ closeP)) pre post
      (openerP ++ (frag ++ closeP)) ++ post) = _
    rw [expandDollar_id _ _ _ _ hdfree]
    simp [List.append_assoc]
  · unfold extractDiv
    rw [splitOnFirst_at openerP (by decide) pre (frag ++ (closeP ++ post)) h1]
    show (splitOnFirst closeP (frag ++ (closeP ++ post))).map Prod.fst = some frag
    rw [splitOnFirst_at closeP (by decide) frag post h3]
    rfl

/-- C3 witness: the corrected round trip at concrete template pieces and a
`"</div>"`-free fragment. -/
theorem c3_roundtrip_for_divfree_fragments_witness :
    sepB "A".toList openerP = true ∧ sepB "old".toList closeP = true ∧
    sepB "hello world".toList closeP = true ∧
    (("hello world".toList).all fun c => c != '$') = true ∧
    (replaceFirstDiv
        ("A".toList ++ (openerP ++ ("old".toList ++ (closeP ++ "B".toList))))
        "hello world".toList =
      "A".toList ++ (openerP ++ ("hello world".toList ++ (closeP ++ "B".toList))) ∧
     extractDiv
        ("A".toList ++ (openerP ++ ("hello world".toList ++ (closeP ++ "B".toList)))) =
      some "hello world".toList) :=
  ⟨by decide, by decide, by decide, by decide,
   c3_roundtrip_for_divfree_fragments "A".toList "old".toList "B".toList
     "hello world".toList (by decide) (by decide) (by decide) (by decide)⟩

/-- C4 counterexample: on a template without the placeholder marker (and
without "Loading..."), the publish step completes with `Except.ok` and the
template byte-for-byte unchanged — no configuration error is reported. -/
theorem c4_counterexample :
    updateHtmlRun tmplNoMarker "new content".toList "t".toList =
      Except.ok tmplNoMarker := rfl

/-- C4 (corrected): when the placeholder marker is absent (and no
"Loading..." text is present either), the publish step completes
successfully with the template unchanged; the missing marker is silently
ignored rather than reported. -/
theorem c4_missing_marker_completes_unchanged (template frag updateTime : List Char)
    (h1 : splitOnFirst openerP template = none)
    (h2 : splitOnFirst loadingP template = none) :
    updateHtmlRun template frag updateTime = Except.ok template := by
  have e1 : replaceFirstDiv template frag = template := by
    unfold replaceFirstDiv
    rw [h1]
  have e2 : replaceLoading template updateTime = template := by
    unfold replaceLoading
    rw [h2]
  show Except.ok (replaceLoading (replaceFirstDiv template frag) updateTime) = _
  rw [e1, e2]

/-- C4 witness: the corrected statement at the concrete markerless
template. -/
theorem c4_missing_marker_completes_unchanged_witness :
    splitOnFirst openerP tmplNoMarker = none ∧
    splitOnFirst loadingP tmplNoMarker = none ∧
    updateHtmlRun tmplNoMarker "f".toList "u".toList = Except.ok tmplNoMarker :=
  ⟨by decide, by decide,
   c4_missing_marker_completes_unchanged tmplNoMarker "f".toList "u".toList
     (by decide) (by decide)⟩

end SecarWeather
